import Mathlib

/-!
# Verification of the `dxt pack` packaging pipeline (`src/cli/pack.ts`)

This file gives a shallow embedding of the pure computational core of the
`packExtension` orchestrator and its helpers:

* `sanitizeNameForFilename` — the archive-filename sanitizer (pack.ts lines 35-45);
* `formatFileSize` — the byte-size formatter (pack.ts lines 25-33);
* the report model: sorting, depth-3 directory grouping and line rendering
  (pack.ts lines 130-185);
* an effect-trace model of the whole `packExtension` control flow
  (pack.ts lines 47-222), with the external collaborators (filesystem,
  prompt, init flow, validator, `fflate.zipSync`) modelled as oracle inputs
  in a `PackEnv` record.

Strings are modelled as Lean `String`s / `List Char`; JavaScript numbers as
`Nat`/`ℚ` with the exact rounding semantics of `Number.prototype.toFixed`.
-/

namespace Pack

/-! ## Character-level helpers for `sanitizeNameForFilename`

JS `String.prototype.toLowerCase` is modelled on the ASCII range
(`A`-`Z` map to `a`-`z`, everything else is fixed); non-ASCII characters
are stripped by the subsequent `[^a-z0-9-_.]` filter in any case.
JS regex `\s` is modelled by the standard ASCII whitespace characters. -/

def jsToLower (c : Char) : Char :=
  if 65 ≤ c.toNat ∧ c.toNat ≤ 90 then Char.ofNat (c.toNat + 32) else c

/-- JS regex `\s` on the ASCII range: space (32), tab (9), line feed (10),
carriage return (13), vertical tab (11), form feed (12). -/
def isJsSpace (c : Char) : Bool :=
  decide (c.toNat = 32 ∨ c.toNat = 9 ∨ c.toNat = 10 ∨
    c.toNat = 13 ∨ c.toNat = 11 ∨ c.toNat = 12)

/-- The character class `[a-z0-9-_.]` kept by the sanitizer's filter step:
`a`-`z` are codes 97-122, `0`-`9` are 48-57, `-` is 45, `_` is 95, `.` is 46. -/
def allowedChar (c : Char) : Bool :=
  decide ((97 ≤ c.toNat ∧ c.toNat ≤ 122) ∨ (48 ≤ c.toNat ∧ c.toNat ≤ 57) ∨
    c.toNat = 45 ∨ c.toNat = 95 ∨ c.toNat = 46)

/-- The hyphen test used by the hyphen-collapsing and trimming steps. -/
def isHyphen (c : Char) : Bool :=
  c == '-'

/-- JS `replace(/p+/g, rep)`: every maximal run of characters satisfying `p`
is replaced by the single character `rep`.  The boolean state records whether
we are currently inside a run. -/
def collapseRuns (p : Char → Bool) (rep : Char) : Bool → List Char → List Char
  | _, [] => []
  | inRun, c :: rest =>
    if p c then
      if inRun then collapseRuns p rep true rest
      else rep :: collapseRuns p rep true rest
    else c :: collapseRuns p rep false rest

/-- JS `replace(/^-+|-+$/g, "")`: drop the leading and the trailing
run of hyphens. -/
def trimHyphens (l : List Char) : List Char :=
  ((l.dropWhile isHyphen).reverse.dropWhile isHyphen).reverse

/-- The sanitizer pipeline of pack.ts lines 38-44, before the final
`substring(0, 100)` truncation. -/
def sanitizePre (s : List Char) : List Char :=
  trimHyphens (collapseRuns isHyphen '-' false
    ((collapseRuns isJsSpace '-' false (s.map jsToLower)).filter allowedChar))

/-- The function `sanitizeNameForFilename` on character lists: lower-case, collapse
whitespace runs to `-`, keep only `[a-z0-9-_.]`, collapse hyphen runs,
trim leading/trailing hyphens, truncate to 100 characters. -/
def sanitizeChars (s : List Char) : List Char :=
  (sanitizePre s).take 100

/-- pack.ts lines 35-45. -/
def sanitizeNameForFilename (s : String) : String :=
  String.mk (sanitizeChars s.data)

/-! ## `formatFileSize` (pack.ts lines 25-33)

`(x).toFixed(1)` on a non-negative number renders `n / 10` with one digit
after the decimal point, where `n` is the integer closest to `10 * x`,
ties resolved to the larger integer (ECMA-262 `Number.prototype.toFixed`).
The divisions by `1024` and `1024²` are exact in binary floating point, so
the rational model below is exact for all sizes below `2^53`. -/

/-- Render `n` tenths as a decimal numeral with exactly one digit after
the point, e.g. `oneDecimal 10240 = "1024.0"`. -/
def oneDecimal (n : Nat) : String :=
  toString (n / 10) ++ "." ++ toString (n % 10)

/-- pack.ts lines 25-33, with `toFixed(1)` realised by the exact integer
rounding `⌊(10·bytes + d/2) / d⌋` (round half up). -/
def formatFileSize (bytes : Nat) : String :=
  if bytes < 1024 then toString bytes ++ "B"
  else if bytes < 1024 * 1024 then oneDecimal ((10 * bytes + 512) / 1024) ++ "kB"
  else oneDecimal ((10 * bytes + 524288) / 1048576) ++ "MB"

/-- JS `x.toFixed(1)` for a non-negative rational `x`, from the ECMA-262
specification: the rendered digits are the integer nearest `10·x`, ties
going up, i.e. `⌊10·x + 1/2⌋`. -/
def jsToFixed1 (x : ℚ) : String :=
  oneDecimal (Nat.floor (x * 10 + 1 / 2))

/-- The size formatter as the spec words it: whole bytes under 1024,
`value / 1024` to one decimal under 1024², else `value / 1024²` to one
decimal. -/
def specFormatFileSize (bytes : Nat) : String :=
  if bytes < 1024 then toString bytes ++ "B"
  else if bytes < 1024 * 1024 then jsToFixed1 ((bytes : ℚ) / 1024) ++ "kB"
  else jsToFixed1 ((bytes : ℚ) / (1024 * 1024)) ++ "MB"

/-! ## Report model (pack.ts lines 130-185) -/

/-- Split a character list on `/`, as JS `relPath.split(sep)`: the empty
string yields one empty segment, a separator at either end yields an empty
segment there. -/
def splitSeg : List Char → List (List Char)
  | [] => [[]]
  | c :: rest =>
    if c = '/' then [] :: splitSeg rest
    else
      match splitSeg rest with
      | s :: ss => (c :: s) :: ss
      | [] => [[c]]

/-- JS `relPath.split(sep).length` — the number of path segments. -/
def segCount (p : String) : Nat :=
  (splitSeg p.data).length

/-- JS `parts.join("/")`. -/
def joinSeg : List (List Char) → List Char
  | [] => []
  | [s] => s
  | s :: rest => s ++ '/' :: joinSeg rest

/-- JS `parts.slice(0, 3).join("/")` — the grouping key of a deeply nested
path (pack.ts line 155). -/
def groupKey (p : String) : String :=
  String.mk (joinSeg ((splitSeg p.data).take 3))

/-- One value of the `directoryGroups` map (pack.ts lines 137-140). -/
structure Group where
  files : List String
  totalSize : Nat
deriving DecidableEq

/-- JS `Map.set` on an association list (pack.ts lines 156-161): an
existing key is updated in place, keeping its position; a new key is
appended at the end, with a fresh `{ files: [path], totalSize: size }`. -/
def addToGroups (gs : List (String × Group)) (k : String) (p : String) (sz : Nat) :
    List (String × Group) :=
  match gs with
  | [] => [(k, ⟨[p], sz⟩)]
  | (k', g) :: rest =>
    if k' = k then (k', ⟨g.files ++ [p], g.totalSize + sz⟩) :: rest
    else (k', g) :: addToGroups rest k p sz

/-- JS `parts.length > 3` — the deep-nesting test (pack.ts line 153). -/
def isDeep (p : String) : Bool :=
  decide (3 < segCount p)

/-- One iteration of the grouping loop (pack.ts lines 143-165) over the
state `(directoryGroups, shallowFiles)`. -/
def groupStep (acc : List (String × Group) × List (String × Nat)) (e : String × Nat) :
    List (String × Group) × List (String × Nat) :=
  if isDeep e.1 then (addToGroups acc.1 (groupKey e.1) e.1 e.2, acc.2)
  else (acc.1, acc.2 ++ [e])

/-- The grouping loop over a full (already sorted) entry list. -/
def groupEntries (es : List (String × Nat)) :
    List (String × Group) × List (String × Nat) :=
  es.foldl groupStep ([], [])

/-- The member files of the group keyed `k` (`Map.get`), `[]` if absent. -/
def filesOf (gs : List (String × Group)) (k : String) : List String :=
  match gs with
  | [] => []
  | (k', g) :: rest => if k' = k then g.files else filesOf rest k

/-- The aggregate size of the group keyed `k`, `0` if absent. -/
def totalOf (gs : List (String × Group)) (k : String) : Nat :=
  match gs with
  | [] => 0
  | (k', g) :: rest => if k' = k then g.totalSize else totalOf rest k

/-- Code-unit lexicographic order on character lists.  This models the
ascending order produced by `sort(([a], [b]) => a.localeCompare(b))`
(pack.ts line 134); `localeCompare` itself is locale dependent, but on the
disjoint lowercase ASCII paths used in the concrete instances below every
locale agrees with code-unit order. -/
def lexLe : List Char → List Char → Bool
  | [], _ => true
  | _ :: _, [] => false
  | a :: as, b :: bs =>
    if a.toNat < b.toNat then true
    else if a = b then lexLe as bs else false

/-- The sort relation of pack.ts line 134: by full path. -/
def pathLe (a b : String × Nat) : Prop :=
  lexLe a.1.data b.1.data = true

instance : DecidableRel pathLe :=
  fun _ _ => instDecidableEqBool _ _

/-- The sort `fileEntries.sort(...)` (pack.ts line 134); JS `Array.prototype.sort`
with a comparator is a stable comparison sort. -/
def sortEntries (es : List (String × Nat)) : List (String × Nat) :=
  List.insertionSort pathLe es

/-- JS `String.prototype.padStart(8)`. -/
def padStart8 (s : String) : String :=
  String.mk (List.replicate (8 - s.length) ' ') ++ s

/-- An individual file line (pack.ts lines 169 and 176-178). -/
def fileLine (p : String) (sz : Nat) : String :=
  padStart8 (formatFileSize sz) ++ " " ++ p

/-- A directory summary line (pack.ts lines 181-183). -/
def summaryLine (dir : String) (g : Group) : String :=
  padStart8 (formatFileSize g.totalSize) ++ " " ++ dir ++ "/ [and " ++
    toString g.files.length ++ " more files]"

/-- The line printed for one directory group (pack.ts lines 173-185): a
single-member group is printed as an ordinary file line, otherwise as a
summary line. -/
def groupLine (dir : String) (g : Group) : String :=
  if g.files.length = 1 then fileLine (g.files.headD (String.mk [])) g.totalSize
  else summaryLine dir g

/-- The "Archive Contents" lines in print order (pack.ts lines 167-185):
all shallow-file lines first, then the directory-group lines in first-
insertion order. -/
def reportLines (es : List (String × Nat)) : List String :=
  ((groupEntries (sortEntries es)).2.map (fun e => fileLine e.1 e.2)) ++
    ((groupEntries (sortEntries es)).1.map (fun kg => groupLine kg.1 kg.2))

/-- The path component of each printed line, in print order: the relative
path for a file line, the directory key for a summary line.  Sortedness of
the listing "by full relative path" is a statement about this sequence. -/
def reportItems (es : List (String × Nat)) : List String :=
  ((groupEntries (sortEntries es)).2.map (fun e => e.1)) ++
    ((groupEntries (sortEntries es)).1.map (fun kg =>
      if kg.2.files.length = 1 then kg.2.files.headD (String.mk []) else kg.1))

/-! ## Archive builder and orchestrator model (pack.ts lines 47-222) -/

/-- DOS timestamps stored in zip headers have 2-second resolution and
occupy 32 bits (date and time words). -/
def dosTime (t : Nat) : Nat :=
  (t / 2) % 2 ^ 32

def encodeU32 (n : Nat) : List Nat :=
  [n % 256, n / 256 % 256, n / 65536 % 256, n / 16777216 % 256]

/-- One local entry of the zip container for the file `f`: local-header
magic `PK\x03\x04`, the stored modification-time field, the path length,
the path bytes, then the entry data.  `fflate.zipSync` is an external
collaborator (not code of this repository); this models the structure of
its output that the claims depend on: the bytes are a pure function of the
entries, the compression level and the `mtime` option, and every local
header stores a timestamp field derived from `mtime`.  DEFLATE itself is
abstracted as the identity on content. -/
def entryBytes (mtime : Nat) (f : String × List Nat) : List Nat :=
  [80, 75, 3, 4] ++ encodeU32 (dosTime mtime) ++ encodeU32 f.1.length ++
    (f.1.data.map Char.toNat) ++ f.2

/-- The modelled `zipSync(files, { level, mtime })` output: the local
entries, the end-of-central-directory magic `PK\x05\x06`, the entry count,
and the compression level (standing in for the level-dependent DEFLATE
stream choice). -/
def zipSyncModel (files : List (String × List Nat)) (level : Nat) (mtime : Nat) :
    List Nat :=
  (files.map (entryBytes mtime)).flatten ++ [80, 75, 5, 6] ++
    encodeU32 files.length ++ [level]

/-- Observable collaborator events of one `packExtension` invocation, in
order: the manifest-creation prompt, the init flow, the recursive
`mkdirSync`, the start of file discovery, and a completed `writeFileSync`. -/
inductive FsEvent where
  | promptCreate
  | initRun
  | mkdirRecursive (dir : String)
  | discoverStart (root : String)
  | writeFile (path : String) (data : List Nat)
deriving DecidableEq

/-- Oracle inputs of one `packExtension` invocation: the CLI arguments and
the replies of every external collaborator — the filesystem checks (lines
56, 63), the interactive prompt (line 65), the init flow (line 71), the
validator (line 84) and the manifest parse (lines 91-94), file discovery
(lines 115-123), whether `zipSync` throws, and the wall clock read by
`new Date()` at line 190. -/
structure PackEnv where
  cwd : String
  extensionPath : String
  outputPath : Option String
  dirExists : Bool
  manifestExists : Bool
  confirmCreate : Bool
  initSucceeds : Bool
  validateOk : Bool
  parseOk : Bool
  discover : Except String (List (String × List Nat))
  zipThrows : Bool
  now : Nat

/-- Model of `path.resolve` for already-normalized inputs: an absolute path (with a
leading `/`) stands as is, a relative one is resolved against the current
working directory. -/
def resolveP (cwd p : String) : String :=
  if p.data.head? = some '/' then p else cwd ++ "/" ++ p

/-- Model of `path.basename`: the last `/`-segment. -/
def basenameP (p : String) : String :=
  String.mk ((splitSeg p.data).getLastD [])

/-- Model of `path.join(p, "..")` for a normalized path: drop the last segment. -/
def parentDirP (p : String) : String :=
  String.mk (joinSeg (splitSeg p.data).dropLast)

/-- The value `resolve(extensionPath)` (pack.ts line 52). -/
def resolvedPathOf (env : PackEnv) : String :=
  resolveP env.cwd env.extensionPath

/-- pack.ts lines 103-107: the resolved output path — the supplied output
path if any, else `<basename of the extension directory>.dxt` resolved
against the current working directory. -/
def finalOutputPathOf (env : PackEnv) : String :=
  match env.outputPath with
  | some o => resolveP env.cwd o
  | none => resolveP env.cwd (basenameP (resolvedPathOf env) ++ ".dxt")

/-- pack.ts lines 113-221 (the try/catch block): file discovery, then
`zipSync`, then the single `writeFileSync` of the complete buffer; any
thrown error is caught and turned into a `false` return. -/
def packBuild (env : PackEnv) : Bool × List FsEvent :=
  match env.discover with
  | Except.error _ => (false, [FsEvent.discoverStart (resolvedPathOf env)])
  | Except.ok files =>
    if env.zipThrows then (false, [FsEvent.discoverStart (resolvedPathOf env)])
    else
      (true, [FsEvent.discoverStart (resolvedPathOf env),
        FsEvent.writeFile (finalOutputPathOf env) (zipSyncModel files 9 env.now)])

/-- pack.ts lines 82-221: manifest validation and parse, output-path
resolution, `mkdirSync(join(finalOutputPath, ".."), { recursive: true })`,
then the try block.  `pre` is the event prefix from the manifest-check
stage. -/
def packAfterManifest (env : PackEnv) (pre : List FsEvent) : Bool × List FsEvent :=
  if env.validateOk = false then (false, pre)
  else if env.parseOk = false then (false, pre)
  else
    ((packBuild env).1,
      pre ++ FsEvent.mkdirRecursive (parentDirP (finalOutputPathOf env)) ::
        (packBuild env).2)

/-- pack.ts lines 47-222: the whole `packExtension` control flow — the
returned boolean and the ordered trace of collaborator events. -/
def packExtensionRun (env : PackEnv) : Bool × List FsEvent :=
  if env.dirExists = false then (false, [])
  else if env.manifestExists then packAfterManifest env []
  else if env.confirmCreate = false then (false, [FsEvent.promptCreate])
  else if env.initSucceeds = false then (false, [FsEvent.promptCreate, FsEvent.initRun])
  else packAfterManifest env [FsEvent.promptCreate, FsEvent.initRun]

/-! ## Auxiliary predicates used in the statements -/

/-- Strict key order: `pathLe` together with distinct paths.  Used to show
the sorted order is unique when no two entries share a path. -/
def pathLtKey (a b : String × Nat) : Prop :=
  pathLe a b ∧ a.1 ≠ b.1

/-- No two adjacent hyphens — the post-condition of the `-+` collapse. -/
def NoHH (a b : Char) : Prop :=
  ¬(a = '-' ∧ b = '-')

/-- The entries contributing to the group keyed `q`: deeply nested and
with grouping key `q`. -/
def deepKeyTest (q : String) (e : String × Nat) : Bool :=
  isDeep e.1 && decide (groupKey e.1 = q)

def isWriteEvent : FsEvent → Bool
  | FsEvent.writeFile _ _ => true
  | _ => false

def isMkdirEvent : FsEvent → Bool
  | FsEvent.mkdirRecursive _ => true
  | _ => false

def isDiscoverEvent : FsEvent → Bool
  | FsEvent.discoverStart _ => true
  | _ => false

/-! ## Concrete instances used in witnesses and counterexamples -/

/-- A 101-character manifest name `a-a-…-a` (alternating, hyphens at the
odd positions) whose trimmed sanitized form has length 101 and is cut by
`substring(0, 100)` right after a hyphen. -/
def altName : String :=
  String.mk ((List.replicate 50 ['a', '-']).flatten ++ ['a'])

/-- Two entries, one deeply nested and one shallow, whose report listing
is not sorted by path: the shallow `z.txt` line is printed before the
`a/b/c` group line. -/
def mixedEntries : List (String × Nat) :=
  [("a/b/c/d/e.txt", 1), ("z.txt", 2)]

/-- A fully successful environment: extension directory `/w/ext` holding a
manifest, valid manifest, one discovered file, no `--output` flag, clock
reading 0. -/
def okEnv : PackEnv where
  cwd := "/w"
  extensionPath := "ext"
  outputPath := none
  dirExists := true
  manifestExists := true
  confirmCreate := true
  initSucceeds := true
  validateOk := true
  parseOk := true
  discover := Except.ok [("manifest.json", [123, 125])]
  zipThrows := false
  now := 0

/-- The environment `okEnv`, invoked 4 seconds later. -/
def okEnvLater : PackEnv :=
  { okEnv with now := 4 }

/-- The environment `okEnv` with file discovery throwing. -/
def discoverFailEnv : PackEnv :=
  { okEnv with discover := Except.error ("ENOENT") }

/-- The environment `okEnv` without a manifest, the user declining creation. -/
def declinedEnv : PackEnv :=
  { okEnv with manifestExists := false, confirmCreate := false }

/-- The entries of `mixedEntries` as the filesystem might also enumerate them. -/
def mixedEntriesRev : List (String × Nat) :=
  [("z.txt", 2), ("a/b/c/d/e.txt", 1)]

/-! ## C3: size formatting -/

theorem floor_tenths_kB (b : ℕ) :
    Nat.floor ((b : ℚ) / 1024 * 10 + 1 / 2) = (10 * b + 512) / 1024 := by
  have h : (b : ℚ) / 1024 * 10 + 1 / 2 = ((10 * b + 512 : ℕ) : ℚ) / ((1024 : ℕ) : ℚ) := by
    push_cast
    ring
  rw [h, Nat.floor_div_nat, Nat.floor_natCast]

theorem floor_tenths_MB (b : ℕ) :
    Nat.floor ((b : ℚ) / (1024 * 1024) * 10 + 1 / 2) = (10 * b + 524288) / 1048576 := by
  have h : (b : ℚ) / (1024 * 1024) * 10 + 1 / 2
      = ((10 * b + 524288 : ℕ) : ℚ) / ((1048576 : ℕ) : ℚ) := by
    push_cast
    ring
  rw [h, Nat.floor_div_nat, Nat.floor_natCast]

theorem formatFileSize_eq_spec (b : ℕ) : formatFileSize b = specFormatFileSize b := by
  unfold formatFileSize specFormatFileSize jsToFixed1
  split
  · rfl
  · split
    · rw [floor_tenths_kB]
    · rw [floor_tenths_MB]

/-- C3: for every byte count, `formatFileSize` renders whole bytes with
suffix `B` below 1024, the value divided by 1024 with exactly one decimal
and suffix `kB` below 1024², and the value divided by 1024² with one
decimal and suffix `MB` otherwise (with `toFixed(1)` rounding half up);
in particular 1023 ↦ `"1023B"`, 1024 ↦ `"1.0kB"`, 1048575 ↦ `"1024.0kB"`,
1048576 ↦ `"1.0MB"`. -/
theorem c3_formatFileSize_spec (n : ℕ) :
    formatFileSize n = specFormatFileSize n ∧
    formatFileSize 1023 = "1023B" ∧ formatFileSize 1024 = "1.0kB" ∧
    formatFileSize 1048575 = "1024.0kB" ∧ formatFileSize 1048576 = "1.0MB" :=
  ⟨formatFileSize_eq_spec n, by decide, by decide, by decide, by decide⟩

/-- Witness for C3 at the byte count 1500: 1500 bytes render as `"1.5kB"`
and agree with the spec-side formatter. -/
theorem c3_formatFileSize_spec_witness :
    formatFileSize 1500 = specFormatFileSize 1500 ∧ formatFileSize 1500 = "1.5kB" :=
  ⟨(c3_formatFileSize_spec 1500).1, by decide⟩

/-! ## C2: the filename sanitizer -/

theorem allowedChar_cases {c : Char} (h : allowedChar c = true) :
    (97 ≤ c.toNat ∧ c.toNat ≤ 122) ∨ (48 ≤ c.toNat ∧ c.toNat ≤ 57) ∨
    c.toNat = 45 ∨ c.toNat = 95 ∨ c.toNat = 46 := by
  simpa [allowedChar] using h

theorem jsToLower_allowed {c : Char} (h : allowedChar c = true) : jsToLower c = c := by
  have hc := allowedChar_cases h
  unfold jsToLower
  rw [if_neg]
  omega

theorem isJsSpace_allowed {c : Char} (h : allowedChar c = true) : isJsSpace c = false := by
  have hc := allowedChar_cases h
  simp only [isJsSpace, decide_eq_false_iff_not]
  omega

theorem map_jsToLower_allowed {l : List Char} (h : ∀ c ∈ l, allowedChar c = true) :
    l.map jsToLower = l := by
  induction l with
  | nil => rfl
  | cons c rest ih =>
    simp only [List.map_cons]
    rw [jsToLower_allowed (h c (by simp)), ih (fun d hd => h d (by simp [hd]))]

theorem collapseRuns_eq_self {p : Char → Bool} {rep : Char} {l : List Char}
    (h : ∀ c ∈ l, p c = false) (b : Bool) : collapseRuns p rep b l = l := by
  induction l generalizing b with
  | nil => rfl
  | cons c rest ih =>
    have hc := h c (by simp)
    simp only [collapseRuns, hc, Bool.false_eq_true, if_false]
    rw [ih (fun d hd => h d (by simp [hd]))]

theorem mem_collapseRuns {p : Char → Bool} {rep : Char} {l : List Char} {b : Bool}
    {c : Char} (h : c ∈ collapseRuns p rep b l) : c = rep ∨ c ∈ l := by
  induction l generalizing b with
  | nil => simp [collapseRuns] at h
  | cons d rest ih =>
    by_cases hd : p d = true
    · cases b with
      | true =>
        simp only [collapseRuns, hd, if_true] at h
        rcases ih h with h' | h'
        · exact Or.inl h'
        · exact Or.inr (by simp [h'])
      | false =>
        simp only [collapseRuns, hd, if_true] at h
        rcases List.mem_cons.mp h with rfl | h'
        · exact Or.inl rfl
        · rcases ih h' with h'' | h''
          · exact Or.inl h''
          · exact Or.inr (by simp [h''])
    · simp only [collapseRuns, hd, Bool.false_eq_true, if_false] at h
      rcases List.mem_cons.mp h with rfl | h'
      · exact Or.inr (by simp)
      · rcases ih h' with h'' | h''
        · exact Or.inl h''
        · exact Or.inr (by simp [h''])

theorem collapseRuns_true_head {l : List Char} {c : Char}
    (h : (collapseRuns isHyphen '-' true l).head? = some c) : c ≠ '-' := by
  induction l with
  | nil => simp [collapseRuns] at h
  | cons d rest ih =>
    by_cases hd : isHyphen d = true
    · simp only [collapseRuns, hd, if_true] at h
      exact ih h
    · simp only [collapseRuns, hd, Bool.false_eq_true, if_false, List.head?_cons,
        Option.some.injEq] at h
      subst h
      simpa [isHyphen] using hd

theorem chain_collapseRuns_hyphen (b : Bool) (l : List Char) :
    List.Chain' NoHH (collapseRuns isHyphen '-' b l) := by
  induction l generalizing b with
  | nil => simp [collapseRuns]
  | cons d rest ih =>
    by_cases hd : isHyphen d = true
    · cases b with
      | true => simpa only [collapseRuns, hd, if_true] using ih true
      | false =>
        simp only [collapseRuns, hd, if_true, Bool.false_eq_true, if_false]
        rw [List.chain'_cons']
        refine ⟨fun c hc => ?_, ih true⟩
        have := collapseRuns_true_head (l := rest) (c := c)
        intro hcontra
        exact this (by simpa using hc) hcontra.2
    · simp only [collapseRuns, hd, Bool.false_eq_true, if_false]
      rw [List.chain'_cons']
      refine ⟨fun c hc => fun hcontra => ?_, ih false⟩
      have : d ≠ '-' := by simpa [isHyphen] using hd
      exact this hcontra.1

theorem collapseRuns_hyphen_fix {l : List Char} (b : Bool)
    (hch : List.Chain' NoHH l)
    (hb : b = true → ∀ c, l.head? = some c → c ≠ '-') :
    collapseRuns isHyphen '-' b l = l := by
  induction l generalizing b with
  | nil => rfl
  | cons d rest ih =>
    by_cases hd : isHyphen d = true
    · have hd' : d = '-' := by simpa [isHyphen] using hd
      cases b with
      | true => exact absurd hd' (hb rfl d (by simp))
      | false =>
        simp only [collapseRuns, hd, if_true, Bool.false_eq_true, if_false,
          List.cons.injEq]
        rw [List.chain'_cons'] at hch
        refine ⟨hd'.symm, ih true hch.2 (fun _ c hc => ?_)⟩
        intro hcontra
        exact hch.1 c hc ⟨hd', hcontra⟩
    · simp only [collapseRuns, hd, Bool.false_eq_true, if_false, List.cons.injEq]
      rw [List.chain'_cons'] at hch
      exact ⟨trivial, ih false hch.2 (by simp)⟩

theorem head?_dropWhile {p : Char → Bool} {l : List Char} {c : Char}
    (h : (l.dropWhile p).head? = some c) : p c = false := by
  induction l with
  | nil => simp [List.dropWhile] at h
  | cons d rest ih =>
    rw [List.dropWhile_cons] at h
    by_cases hd : p d = true
    · rw [if_pos hd] at h
      exact ih h
    · rw [if_neg hd] at h
      simp only [List.head?_cons, Option.some.injEq] at h
      subst h
      exact Bool.eq_false_iff.mpr hd

theorem dropWhile_eq_self {p : Char → Bool} {l : List Char}
    (h : ∀ c, l.head? = some c → p c = false) : l.dropWhile p = l := by
  cases l with
  | nil => rfl
  | cons d rest =>
    rw [List.dropWhile_cons, if_neg]
    simp [h d rfl]

theorem trimHyphens_split (l : List Char) :
    trimHyphens l ++ ((l.dropWhile isHyphen).reverse.takeWhile isHyphen).reverse
      = l.dropWhile isHyphen ∧
    ∀ c ∈ ((l.dropWhile isHyphen).reverse.takeWhile isHyphen).reverse,
      isHyphen c = true := by
  constructor
  · rw [trimHyphens, ← List.reverse_append, List.takeWhile_append_dropWhile,
      List.reverse_reverse]
  · intro c hc
    rw [List.mem_reverse] at hc
    exact List.mem_takeWhile_imp hc

theorem trimHyphens_head {l : List Char} {c : Char}
    (h : (trimHyphens l).head? = some c) : c ≠ '-' := by
  obtain ⟨ht, -⟩ := trimHyphens_split l
  have hm : (l.dropWhile isHyphen).head? = some c := by
    rw [← ht]
    cases htl : trimHyphens l with
    | nil => rw [htl] at h; simp at h
    | cons a s =>
      rw [htl] at h
      simp only [List.head?_cons, Option.some.injEq] at h
      subst h
      rfl
  have := head?_dropWhile hm
  simpa [isHyphen] using this

theorem trimHyphens_getLast {l : List Char} {c : Char}
    (h : (trimHyphens l).getLast? = some c) : c ≠ '-' := by
  rw [trimHyphens, List.getLast?_reverse] at h
  have := head?_dropWhile h
  simpa [isHyphen] using this

theorem trimHyphens_eq_self {l : List Char}
    (h1 : ∀ c, l.head? = some c → c ≠ '-')
    (h2 : ∀ c, l.getLast? = some c → c ≠ '-') : trimHyphens l = l := by
  have hin : l.dropWhile isHyphen = l :=
    dropWhile_eq_self (fun c hc => by simpa [isHyphen] using h1 c hc)
  have hrev : l.reverse.dropWhile isHyphen = l.reverse :=
    dropWhile_eq_self (fun c hc => by
      rw [List.head?_reverse] at hc
      simpa [isHyphen] using h2 c hc)
  rw [trimHyphens, hin, hrev, List.reverse_reverse]

theorem noHH_symm {a b : Char} (h : NoHH a b) : NoHH b a :=
  fun hc => h ⟨hc.2, hc.1⟩

theorem chain_trimHyphens {l : List Char} (h : List.Chain' NoHH l) :
    List.Chain' NoHH (trimHyphens l) := by
  rw [trimHyphens]
  have h1 : List.Chain' NoHH (l.dropWhile isHyphen) :=
    List.Chain'.suffix h (List.dropWhile_suffix _)
  have h2 : List.Chain' NoHH (l.dropWhile isHyphen).reverse := by
    rw [List.chain'_reverse]
    exact h1.imp (fun a b hab => noHH_symm hab)
  have h3 : List.Chain' NoHH ((l.dropWhile isHyphen).reverse.dropWhile isHyphen) :=
    List.Chain'.suffix h2 (List.dropWhile_suffix _)
  rw [List.chain'_reverse]
  exact h3.imp (fun a b hab => noHH_symm hab)

theorem mem_trimHyphens {l : List Char} {c : Char} (h : c ∈ trimHyphens l) : c ∈ l := by
  rw [trimHyphens, List.mem_reverse] at h
  have h1 := (List.dropWhile_suffix isHyphen).subset h
  rw [List.mem_reverse] at h1
  exact (List.dropWhile_suffix isHyphen).subset h1

theorem sanitizePre_allowed {s : List Char} : ∀ c ∈ sanitizePre s, allowedChar c = true := by
  intro c hc
  have h1 := mem_trimHyphens hc
  rcases mem_collapseRuns h1 with rfl | h2
  · decide
  · exact List.of_mem_filter h2

theorem sanitizePre_chain (s : List Char) : List.Chain' NoHH (sanitizePre s) :=
  chain_trimHyphens (chain_collapseRuns_hyphen false _)

theorem head?_take_100 {l : List Char} {c : Char} (h : (l.take 100).head? = some c) :
    l.head? = some c := by
  cases l with
  | nil => simp at h
  | cons a rest => simpa using h

/-- A list already in the sanitizer's normal form is a fixpoint. -/
theorem sanitizeChars_fix {t : List Char}
    (hall : ∀ c ∈ t, allowedChar c = true)
    (hch : List.Chain' NoHH t)
    (hh : ∀ c, t.head? = some c → c ≠ '-')
    (hl : ∀ c, t.getLast? = some c → c ≠ '-')
    (hlen : t.length ≤ 100) :
    sanitizeChars t = t := by
  unfold sanitizeChars sanitizePre
  rw [map_jsToLower_allowed hall,
    collapseRuns_eq_self (fun c hc => isJsSpace_allowed (hall c hc)) false,
    List.filter_eq_self.mpr hall,
    collapseRuns_hyphen_fix false hch (by simp),
    trimHyphens_eq_self hh hl]
  exact List.take_of_length_le hlen

/-- C2 (amended): the sanitizer output is at most 100 characters, contains
only characters in `[a-z0-9-_.]`, and never starts with a hyphen; and
whenever the output does not end with a hyphen (which can only happen when
the 100-character truncation cuts directly after one) a second application
is the identity. -/
theorem c2_sanitize_properties (s : String) :
    (sanitizeNameForFilename s).length ≤ 100 ∧
    (∀ c ∈ (sanitizeNameForFilename s).data, allowedChar c = true) ∧
    (∀ c, (sanitizeNameForFilename s).data.head? = some c → c ≠ '-') ∧
    ((∀ c, (sanitizeNameForFilename s).data.getLast? = some c → c ≠ '-') →
      sanitizeNameForFilename (sanitizeNameForFilename s) = sanitizeNameForFilename s) := by
  have hdata : (sanitizeNameForFilename s).data = sanitizeChars s.data := rfl
  refine ⟨?_, ?_, ?_, ?_⟩
  · show (sanitizeNameForFilename s).data.length ≤ 100
    rw [hdata]
    unfold sanitizeChars
    exact List.length_take_le 100 _
  · intro c hc
    rw [hdata] at hc
    exact sanitizePre_allowed c (List.take_subset 100 _ hc)
  · intro c hc
    rw [hdata] at hc
    exact trimHyphens_head (head?_take_100 hc)
  · intro hlast
    rw [hdata] at hlast
    have h1 : sanitizeChars (sanitizeChars s.data) = sanitizeChars s.data := by
      refine sanitizeChars_fix ?_ ?_ ?_ ?_ ?_
      · exact fun c hc => sanitizePre_allowed c (List.take_subset 100 _ hc)
      · exact List.Chain'.take (sanitizePre_chain s.data) 100
      · exact fun c hc => trimHyphens_head (head?_take_100 hc)
      · exact hlast
      · exact List.length_take_le 100 _
    show String.mk (sanitizeChars (sanitizeChars s.data)) = String.mk (sanitizeChars s.data)
    rw [h1]

/-- Witness for C2 (amended) at the name `"My Ext!"`: the output is
`"my-ext"`, which is idempotent under a second application, is short, uses
only allowed characters, and does not start with a hyphen. -/
theorem c2_sanitize_properties_witness :
    sanitizeNameForFilename (sanitizeNameForFilename ("My Ext!"))
        = sanitizeNameForFilename ("My Ext!") ∧
    (sanitizeNameForFilename ("My Ext!")).length ≤ 100 ∧
    sanitizeNameForFilename ("My Ext!") = "my-ext" := by
  have h := c2_sanitize_properties ("My Ext!")
  exact ⟨h.2.2.2 (by decide), h.1, by decide⟩

/-- C2 counterexample: for the 101-character alternating name `altName`,
the first application ends with a hyphen (the claim forbids a trailing
hyphen) and a second application gives a strictly different, shorter
result (the claim asserts idempotence). -/
theorem c2_sanitize_counterexample :
    sanitizeNameForFilename (sanitizeNameForFilename altName)
        ≠ sanitizeNameForFilename altName ∧
    (sanitizeNameForFilename altName).data.getLast? = some '-' := by
  constructor
  · decide
  · decide

/-! ## Sorting lemmas (pack.ts line 134) -/

theorem char_toNat_inj {a b : Char} (h : a.toNat = b.toNat) : a = b := by
  have ha := Char.ofNat_toNat a
  rw [h, Char.ofNat_toNat] at ha
  exact ha.symm

theorem lexLe_total : ∀ a b : List Char, lexLe a b = true ∨ lexLe b a = true := by
  intro a
  induction a with
  | nil => intro b; exact Or.inl rfl
  | cons c as ih =>
    intro b
    cases b with
    | nil => exact Or.inr rfl
    | cons d bs =>
      by_cases h1 : c.toNat < d.toNat
      · left
        simp [lexLe, h1]
      · by_cases h2 : c = d
        · subst h2
          rcases ih bs with h | h
          · left
            simp [lexLe, Nat.lt_irrefl, h]
          · right
            simp [lexLe, Nat.lt_irrefl, h]
        · right
          have hne : c.toNat ≠ d.toNat := fun hh => h2 (char_toNat_inj hh)
          have h3 : d.toNat < c.toNat := by omega
          simp [lexLe, h3]

theorem lexLe_trans : ∀ {a b c : List Char},
    lexLe a b = true → lexLe b c = true → lexLe a c = true := by
  intro a
  induction a with
  | nil => intro b c _ _; rfl
  | cons x as ih =>
    intro b c hab hbc
    cases b with
    | nil => simp [lexLe] at hab
    | cons y bs =>
      cases c with
      | nil => simp [lexLe] at hbc
      | cons z cs =>
        by_cases h1 : x.toNat < y.toNat
        · by_cases h2 : y.toNat < z.toNat
          · have h3 : x.toNat < z.toNat := by omega
            simp [lexLe, h3]
          · by_cases h3 : y = z
            · subst h3
              simp [lexLe, h1]
            · simp [lexLe, h2, h3] at hbc
        · by_cases hxy : x = y
          · subst hxy
            simp only [lexLe, Nat.lt_irrefl, if_false, if_pos rfl] at hab
            by_cases h2 : x.toNat < z.toNat
            · simp [lexLe, h2]
            · by_cases h3 : x = z
              · subst h3
                simp only [lexLe, Nat.lt_irrefl, if_false, if_pos rfl] at hbc ⊢
                exact ih hab hbc
              · simp [lexLe, h2, h3] at hbc
          · simp [lexLe, h1, hxy] at hab

theorem lexLe_antisymm : ∀ {a b : List Char},
    lexLe a b = true → lexLe b a = true → a = b := by
  intro a
  induction a with
  | nil =>
    intro b _ hba
    cases b with
    | nil => rfl
    | cons d bs => simp [lexLe] at hba
  | cons x as ih =>
    intro b hab hba
    cases b with
    | nil => simp [lexLe] at hab
    | cons y bs =>
      by_cases h1 : x.toNat < y.toNat
      · have h2 : ¬ y.toNat < x.toNat := by omega
        have h3 : y ≠ x := fun h => by
          rw [h] at h1
          exact Nat.lt_irrefl _ h1
        simp [lexLe, h2, h3] at hba
      · by_cases hxy : x = y
        · subst hxy
          simp only [lexLe, Nat.lt_irrefl, if_false, if_pos rfl] at hab hba
          rw [ih hab hba]
        · simp [lexLe, h1, hxy] at hab

theorem string_mk_inj {a b : String} (h : a.data = b.data) : a = b := by
  cases a
  cases b
  exact congrArg String.mk h

instance : IsTotal (String × Nat) pathLe :=
  ⟨fun a b => lexLe_total a.1.data b.1.data⟩

instance : IsTrans (String × Nat) pathLe :=
  ⟨fun _ _ _ hab hbc => lexLe_trans hab hbc⟩

instance : IsAntisymm (String × Nat) pathLtKey :=
  ⟨fun _ _ hab hba =>
    absurd (string_mk_inj (lexLe_antisymm hab.1 hba.1)) hab.2⟩

/-- Sorting a permutation of a duplicate-free entry list gives the same
sorted list: the report's input is independent of enumeration order. -/
theorem sortEntries_eq_of_perm {es es' : List (String × Nat)} (hperm : es.Perm es')
    (hnd : (es.map Prod.fst).Nodup) : sortEntries es = sortEntries es' := by
  have h1 : (sortEntries es).Perm (sortEntries es') :=
    (List.perm_insertionSort pathLe es).trans
      (hperm.trans (List.perm_insertionSort pathLe es').symm)
  have hs1 : List.Pairwise pathLe (sortEntries es) := List.sorted_insertionSort pathLe es
  have hs2 : List.Pairwise pathLe (sortEntries es') := List.sorted_insertionSort pathLe es'
  have hnd1 : ((sortEntries es).map Prod.fst).Nodup :=
    (List.Perm.nodup_iff ((List.perm_insertionSort pathLe es).map Prod.fst)).mpr hnd
  have hnd2 : ((sortEntries es').map Prod.fst).Nodup :=
    (List.Perm.nodup_iff (h1.map Prod.fst)).mp hnd1
  have hst1 : List.Pairwise pathLtKey (sortEntries es) :=
    hs1.and (List.pairwise_map.mp hnd1)
  have hst2 : List.Pairwise pathLtKey (sortEntries es') :=
    hs2.and (List.pairwise_map.mp hnd2)
  exact List.eq_of_perm_of_sorted h1 hst1 hst2

/-! ## Grouping-fold invariants (pack.ts lines 143-165) -/

theorem filesOf_add (gs : List (String × Group)) (k p : String) (sz : Nat) (q : String) :
    filesOf (addToGroups gs k p sz) q =
      if k = q then filesOf gs q ++ [p] else filesOf gs q := by
  induction gs with
  | nil =>
    by_cases hq : k = q <;> simp [addToGroups, filesOf, hq]
  | cons e rest ih =>
    obtain ⟨k', g⟩ := e
    by_cases hk : k' = k
    · subst hk
      by_cases hq : k' = q <;> simp [addToGroups, filesOf, hq]
    · by_cases hq : k' = q
      · subst hq
        have hkq : ¬ k = k' := fun h => hk h.symm
        simp [addToGroups, filesOf, hk, hkq]
      · simp [addToGroups, filesOf, hk, hq, ih]

theorem totalOf_add (gs : List (String × Group)) (k p : String) (sz : Nat) (q : String) :
    totalOf (addToGroups gs k p sz) q =
      if k = q then totalOf gs q + sz else totalOf gs q := by
  induction gs with
  | nil =>
    by_cases hq : k = q <;> simp [addToGroups, totalOf, hq]
  | cons e rest ih =>
    obtain ⟨k', g⟩ := e
    by_cases hk : k' = k
    · subst hk
      by_cases hq : k' = q <;> simp [addToGroups, totalOf, hq]
    · by_cases hq : k' = q
      · subst hq
        have hkq : ¬ k = k' := fun h => hk h.symm
        simp [addToGroups, totalOf, hk, hkq]
      · simp [addToGroups, totalOf, hk, hq, ih]

theorem foldl_groupStep_shallow (es : List (String × Nat))
    (acc : List (String × Group) × List (String × Nat)) :
    (es.foldl groupStep acc).2 = acc.2 ++ es.filter (fun e => !isDeep e.1) := by
  induction es generalizing acc with
  | nil => simp
  | cons e rest ih =>
    rw [List.foldl_cons, ih]
    by_cases hd : isDeep e.1 = true
    · simp [groupStep, hd, List.filter_cons]
    · simp [groupStep, hd, List.filter_cons, Bool.not_eq_true, hd]

theorem foldl_groupStep_filesOf (es : List (String × Nat))
    (acc : List (String × Group) × List (String × Nat)) (q : String) :
    filesOf ((es.foldl groupStep acc).1) q =
      filesOf acc.1 q ++ (es.filter (deepKeyTest q)).map Prod.fst := by
  induction es generalizing acc with
  | nil => simp
  | cons e rest ih =>
    rw [List.foldl_cons, ih]
    by_cases hd : isDeep e.1 = true
    · have hstep : (groupStep acc e).1 = addToGroups acc.1 (groupKey e.1) e.1 e.2 := by
        simp [groupStep, hd]
      rw [hstep, filesOf_add]
      by_cases hq : groupKey e.1 = q
      · rw [if_pos hq]
        simp [deepKeyTest, hd, hq, List.filter_cons, List.append_assoc]
      · rw [if_neg hq]
        simp [deepKeyTest, hd, hq, List.filter_cons]
    · have hstep : (groupStep acc e).1 = acc.1 := by simp [groupStep, hd]
      rw [hstep]
      simp [deepKeyTest, hd, List.filter_cons]

theorem foldl_groupStep_totalOf (es : List (String × Nat))
    (acc : List (String × Group) × List (String × Nat)) (q : String) :
    totalOf ((es.foldl groupStep acc).1) q =
      totalOf acc.1 q + ((es.filter (deepKeyTest q)).map Prod.snd).sum := by
  induction es generalizing acc with
  | nil => simp
  | cons e rest ih =>
    rw [List.foldl_cons, ih]
    by_cases hd : isDeep e.1 = true
    · have hstep : (groupStep acc e).1 = addToGroups acc.1 (groupKey e.1) e.1 e.2 := by
        simp [groupStep, hd]
      rw [hstep, totalOf_add]
      by_cases hq : groupKey e.1 = q
      · rw [if_pos hq]
        have hfil : List.filter (deepKeyTest q) (e :: rest)
            = e :: List.filter (deepKeyTest q) rest := by
          simp [List.filter_cons, deepKeyTest, hd, hq]
        rw [hfil, List.map_cons, List.sum_cons]
        omega
      · rw [if_neg hq]
        simp [deepKeyTest, hd, hq, List.filter_cons]
    · have hstep : (groupStep acc e).1 = acc.1 := by simp [groupStep, hd]
      rw [hstep]
      simp [deepKeyTest, hd, List.filter_cons]

theorem addToGroups_nonempty {gs : List (String × Group)} {k p : String} {sz : Nat}
    (h : ∀ kg ∈ gs, kg.2.files ≠ []) :
    ∀ kg ∈ addToGroups gs k p sz, kg.2.files ≠ [] := by
  induction gs with
  | nil =>
    intro kg hkg
    simp only [addToGroups, List.mem_singleton] at hkg
    subst hkg
    simp
  | cons e rest ih =>
    obtain ⟨k', g⟩ := e
    intro kg hkg
    by_cases hk : k' = k
    · rw [addToGroups, if_pos hk] at hkg
      rcases List.mem_cons.mp hkg with rfl | h'
      · simp
      · exact h kg (by simp [h'])
    · rw [addToGroups, if_neg hk] at hkg
      rcases List.mem_cons.mp hkg with rfl | h'
      · exact h _ (by simp)
      · exact ih (fun kg' hkg' => h kg' (by simp [hkg'])) kg h'

theorem groupEntries_nonempty (es : List (String × Nat)) :
    ∀ kg ∈ (groupEntries es).1, kg.2.files ≠ [] := by
  rw [groupEntries]
  generalize hacc : (([], []) : List (String × Group) × List (String × Nat)) = acc
  have hbase : ∀ kg ∈ acc.1, kg.2.files ≠ [] := by
    subst hacc
    simp
  clear hacc
  induction es generalizing acc with
  | nil => exact hbase
  | cons e rest ih =>
    rw [List.foldl_cons]
    refine ih (groupStep acc e) ?_
    by_cases hd : isDeep e.1 = true
    · have hstep : (groupStep acc e).1 = addToGroups acc.1 (groupKey e.1) e.1 e.2 := by
        simp [groupStep, hd]
      rw [hstep]
      exact addToGroups_nonempty hbase
    · have hstep : (groupStep acc e).1 = acc.1 := by simp [groupStep, hd]
      rw [hstep]
      exact hbase

/-! ## C4: the depth-3 grouping boundary -/

/-- C4: a file whose relative path has more than 3 segments is assigned to
the group keyed by its first 3 segments, a file with 3 or fewer segments
is listed individually among the shallow files, and every group's
aggregate size is the sum of the sizes of its member entries. -/
theorem c4_grouping (es : List (String × Nat)) (p : String) (sz : Nat)
    (hmem : (p, sz) ∈ es) :
    (3 < segCount p → p ∈ filesOf (groupEntries (sortEntries es)).1 (groupKey p)) ∧
    (segCount p ≤ 3 → (p, sz) ∈ (groupEntries (sortEntries es)).2) ∧
    (∀ q, totalOf (groupEntries (sortEntries es)).1 q =
      ((es.filter (deepKeyTest q)).map Prod.snd).sum) := by
  have hmem' : (p, sz) ∈ sortEntries es :=
    (List.perm_insertionSort pathLe es).mem_iff.mpr hmem
  refine ⟨fun hdeep => ?_, fun hsh => ?_, fun q => ?_⟩
  · rw [groupEntries, foldl_groupStep_filesOf]
    have he : deepKeyTest (groupKey p) (p, sz) = true := by
      simp [deepKeyTest, isDeep, hdeep]
    exact List.mem_map.mpr ⟨(p, sz), List.mem_filter.mpr ⟨hmem', he⟩, rfl⟩
  · rw [groupEntries, foldl_groupStep_shallow]
    have hnd : isDeep p = false := by
      simp only [isDeep, decide_eq_false_iff_not]
      omega
    exact List.mem_filter.mpr ⟨hmem', by simp [hnd]⟩
  · rw [groupEntries, foldl_groupStep_totalOf]
    have hp : ((sortEntries es).filter (deepKeyTest q)).Perm (es.filter (deepKeyTest q)) :=
      (List.perm_insertionSort pathLe es).filter _
    simp only [totalOf, Nat.zero_add]
    exact (hp.map Prod.snd).sum_eq

/-- Witness for C4 on `mixedEntries`: the 5-segment file is grouped under
its first three segments `a/b/c`, and the 1-segment file `z.txt` is listed
as a shallow file. -/
theorem c4_grouping_witness :
    "a/b/c/d/e.txt" ∈
      filesOf (groupEntries (sortEntries mixedEntries)).1 (groupKey ("a/b/c/d/e.txt")) ∧
    groupKey ("a/b/c/d/e.txt") = "a/b/c" ∧
    ("z.txt", 2) ∈ (groupEntries (sortEntries mixedEntries)).2 := by
  refine ⟨(c4_grouping mixedEntries ("a/b/c/d/e.txt") 1 (by decide)).1 (by decide),
    by decide,
    (c4_grouping mixedEntries ("z.txt") 2 (by decide)).2.1 (by decide)⟩

/-! ## C5: report ordering -/

/-- C5 (amended): the entry list is sorted by full relative path before
grouping, and the shallow-file lines are exactly the sorted shallow
entries, hence sorted among themselves; the report is invariant under a
permutation of the discovered entries (enumeration order) whenever no two
entries share a path.  The full line sequence, however, prints all shallow
lines before all group lines and so need not be globally sorted. -/
theorem c5_report_order (es es' : List (String × Nat)) (hperm : es.Perm es')
    (hnd : (es.map Prod.fst).Nodup) :
    reportLines es = reportLines es' ∧
    List.Pairwise pathLe (sortEntries es) ∧
    (groupEntries (sortEntries es)).2 = (sortEntries es).filter (fun e => !isDeep e.1) ∧
    List.Pairwise pathLe ((groupEntries (sortEntries es)).2) := by
  have hsort := sortEntries_eq_of_perm hperm hnd
  refine ⟨?_, List.sorted_insertionSort pathLe es, ?_, ?_⟩
  · rw [reportLines, reportLines, hsort]
  · rw [groupEntries, foldl_groupStep_shallow]
    simp
  · rw [groupEntries, foldl_groupStep_shallow]
    simp only [List.nil_append]
    exact List.Pairwise.filter _ (List.sorted_insertionSort pathLe es)

/-- Witness for C5 (amended): the two enumeration orders of the same two
entries produce the same report lines. -/
theorem c5_report_order_witness :
    reportLines mixedEntries = reportLines mixedEntriesRev :=
  (c5_report_order mixedEntries mixedEntriesRev (by decide) (by decide)).1

/-- C5 counterexample: for `mixedEntries` the printed listing is
`z.txt` first (a shallow file) and then the `a/b/c/d/e.txt` group line, so
the sequence of lines is not sorted by full relative path. -/
theorem c5_counterexample :
    reportItems mixedEntries = ["z.txt", "a/b/c/d/e.txt"] ∧
    ¬ List.Pairwise (fun a b : String => lexLe a.data b.data = true)
      (reportItems mixedEntries) := by
  constructor
  · decide
  · decide

/-! ## C9: singleton groups print as plain file lines -/

/-- C9: a directory group with exactly one member file is printed as an
individual file line (size and full relative path); the summary
`[and N more files]` form is used exactly for groups of two or more
files (groups produced by the pipeline are never empty). -/
theorem c9_singleton_groups (es : List (String × Nat)) (k : String) (g : Group)
    (hmem : (k, g) ∈ (groupEntries (sortEntries es)).1) :
    (∀ p, g.files = [p] → groupLine k g = fileLine p g.totalSize) ∧
    (g.files.length ≠ 1 → 2 ≤ g.files.length ∧ groupLine k g = summaryLine k g) := by
  constructor
  · intro p hp
    rw [groupLine, if_pos (by simp [hp])]
    simp [hp]
  · intro hne
    have hnil := groupEntries_nonempty (sortEntries es) (k, g) hmem
    constructor
    · have hz : g.files.length ≠ 0 := by
        simpa [List.length_eq_zero] using hnil
      omega
    · rw [groupLine, if_neg hne]

/-- Witness for C9: in `mixedEntries` the group `a/b/c` has the single
member `a/b/c/d/e.txt` and prints as a plain file line. -/
theorem c9_singleton_groups_witness :
    ("a/b/c", Group.mk ["a/b/c/d/e.txt"] 1) ∈ (groupEntries (sortEntries mixedEntries)).1 ∧
    groupLine ("a/b/c") (Group.mk ["a/b/c/d/e.txt"] 1) =
      fileLine ("a/b/c/d/e.txt") 1 := by
  refine ⟨by decide, ?_⟩
  exact (c9_singleton_groups mixedEntries ("a/b/c") (Group.mk ["a/b/c/d/e.txt"] 1)
    (by decide)).1 ("a/b/c/d/e.txt") rfl

/-! ## Control-flow shape of `packExtensionRun` -/

theorem packBuild_cases (env : PackEnv) :
    ((∃ e, env.discover = Except.error e) ∨ env.zipThrows = true) ∧
      packBuild env = (false, [FsEvent.discoverStart (resolvedPathOf env)]) ∨
    ∃ files, env.discover = Except.ok files ∧ env.zipThrows = false ∧
      packBuild env = (true, [FsEvent.discoverStart (resolvedPathOf env),
        FsEvent.writeFile (finalOutputPathOf env) (zipSyncModel files 9 env.now)]) := by
  cases hd : env.discover with
  | error e =>
    left
    exact ⟨Or.inl ⟨e, rfl⟩, by simp [packBuild, hd]⟩
  | ok files =>
    cases hz : env.zipThrows with
    | true =>
      left
      exact ⟨Or.inr rfl, by simp [packBuild, hd, hz]⟩
    | false =>
      right
      exact ⟨files, rfl, rfl, by simp [packBuild, hd, hz]⟩

theorem packAfterManifest_cases (env : PackEnv) (pre : List FsEvent) :
    (env.validateOk = false ∨ env.parseOk = false) ∧
      packAfterManifest env pre = (false, pre) ∨
    env.validateOk = true ∧ env.parseOk = true ∧
      packAfterManifest env pre = ((packBuild env).1,
        pre ++ FsEvent.mkdirRecursive (parentDirP (finalOutputPathOf env)) ::
          (packBuild env).2) := by
  cases hv : env.validateOk with
  | false => exact Or.inl ⟨Or.inl rfl, by simp [packAfterManifest, hv]⟩
  | true =>
    cases hp : env.parseOk with
    | false => exact Or.inl ⟨Or.inr rfl, by simp [packAfterManifest, hv, hp]⟩
    | true => exact Or.inr ⟨rfl, rfl, by simp [packAfterManifest, hv, hp]⟩

theorem packExtensionRun_cases (env : PackEnv) :
    packExtensionRun env = (false, []) ∨
    packExtensionRun env = (false, [FsEvent.promptCreate]) ∨
    packExtensionRun env = (false, [FsEvent.promptCreate, FsEvent.initRun]) ∨
    ∃ pre, (pre = [] ∨ pre = [FsEvent.promptCreate, FsEvent.initRun]) ∧
      packExtensionRun env = packAfterManifest env pre := by
  cases hd : env.dirExists with
  | false =>
    left
    simp [packExtensionRun, hd]
  | true =>
    cases hm : env.manifestExists with
    | true =>
      right; right; right
      exact ⟨[], Or.inl rfl, by simp [packExtensionRun, hd, hm]⟩
    | false =>
      cases hc : env.confirmCreate with
      | false =>
        right; left
        simp [packExtensionRun, hd, hm, hc]
      | true =>
        cases hi : env.initSucceeds with
        | false =>
          right; right; left
          simp [packExtensionRun, hd, hm, hc, hi]
        | true =>
          right; right; right
          exact ⟨[FsEvent.promptCreate, FsEvent.initRun], Or.inr rfl,
            by simp [packExtensionRun, hd, hm, hc, hi]⟩

/-! ## C6: failures write nothing; success writes once, the whole buffer -/

/-- C6: if file discovery or `zipSync` throws, `packExtension` returns
`false` and no archive write happens at all; unconditionally, at most one
write ever occurs, and any write that does occur carries the complete
compressed buffer computed from the discovered files (and is to the
resolved output path, in a successful run). -/
theorem c6_no_partial_write (env : PackEnv) :
    ((∃ e, env.discover = Except.error e) ∨ env.zipThrows = true →
      (packExtensionRun env).1 = false ∧
      ∀ p d, FsEvent.writeFile p d ∉ (packExtensionRun env).2) ∧
    ((packExtensionRun env).2.filter isWriteEvent).length ≤ 1 ∧
    (∀ p d, FsEvent.writeFile p d ∈ (packExtensionRun env).2 →
      (packExtensionRun env).1 = true ∧ p = finalOutputPathOf env ∧
      ∃ files, env.discover = Except.ok files ∧ d = zipSyncModel files 9 env.now) := by
  rcases packExtensionRun_cases env with h | h | h | ⟨pre, hpre, h⟩
  · rw [h]
    refine ⟨fun _ => ⟨rfl, by simp⟩, by simp, by simp⟩
  · rw [h]
    refine ⟨fun _ => ⟨rfl, by simp⟩, by simp [isWriteEvent], by simp⟩
  · rw [h]
    refine ⟨fun _ => ⟨rfl, by simp⟩, by simp [isWriteEvent], by simp⟩
  · rcases packAfterManifest_cases env pre with ⟨-, ha⟩ | ⟨-, -, ha⟩
    · rw [h, ha]
      have hpw : ∀ p d, FsEvent.writeFile p d ∉ pre := by
        rcases hpre with rfl | rfl <;> simp
      refine ⟨fun _ => ⟨rfl, hpw⟩, ?_, ?_⟩
      · rcases hpre with rfl | rfl <;> simp [isWriteEvent]
      · intro p d hmem
        exact absurd hmem (hpw p d)
    · rcases packBuild_cases env with ⟨herr, hb⟩ | ⟨files, hdf, hzf, hb⟩
      · rw [h, ha, hb]
        have hpw : ∀ q e, FsEvent.writeFile q e ∉ pre := by
          rcases hpre with rfl | rfl <;> simp
        refine ⟨fun _ => ⟨rfl, ?_⟩, ?_, ?_⟩
        · intro p d hmem
          rcases List.mem_append.mp hmem with hp | hm
          · exact hpw p d hp
          · rcases List.mem_cons.mp hm with hx | hx
            · exact FsEvent.noConfusion hx
            · exact FsEvent.noConfusion (List.mem_singleton.mp hx)
        · rcases hpre with rfl | rfl <;> simp [isWriteEvent]
        · intro p d hmem
          rcases List.mem_append.mp hmem with hp | hm
          · exact absurd hp (hpw p d)
          · rcases List.mem_cons.mp hm with hx | hx
            · exact FsEvent.noConfusion hx
            · exact FsEvent.noConfusion (List.mem_singleton.mp hx)
      · rw [h, ha, hb]
        refine ⟨fun herr2 => ?_, ?_, ?_⟩
        · rcases herr2 with ⟨e, he⟩ | hz
          · rw [hdf] at he
            exact absurd he (by simp)
          · rw [hz] at hzf
            exact absurd hzf (by simp)
        · rcases hpre with rfl | rfl <;> simp [isWriteEvent]
        · intro p d hmem
          have hpw : ∀ q e, FsEvent.writeFile q e ∉ pre := by
            rcases hpre with rfl | rfl <;> simp
          rcases List.mem_append.mp hmem with hp | hm
          · exact absurd hp (hpw p d)
          · rcases List.mem_cons.mp hm with hx | hx
            · exact FsEvent.noConfusion hx
            · rcases List.mem_cons.mp hx with hx | hx
              · exact FsEvent.noConfusion hx
              · have hx2 := List.mem_singleton.mp hx
                simp only [FsEvent.writeFile.injEq] at hx2
                obtain ⟨rfl, rfl⟩ := hx2
                exact ⟨rfl, rfl, files, hdf, rfl⟩

/-- Witness for C6: with discovery failing, the run returns `false` and
its trace contains no write. -/
theorem c6_no_partial_write_witness :
    (packExtensionRun discoverFailEnv).1 = false ∧
    ∀ p d, FsEvent.writeFile p d ∉ (packExtensionRun discoverFailEnv).2 :=
  (c6_no_partial_write discoverFailEnv).1 (Or.inl ⟨"ENOENT", rfl⟩)

/-! ## C7: missing manifest, creation declined or failed -/

/-- C7: when no manifest exists, `packExtension` requests interactive
creation (the prompt event); if the user declines or the init flow fails,
it returns `false` and the trace holds only the prompt (and possibly the
init attempt) — no discovery, no mkdir, no write, no archive. -/
theorem c7_manifest_declined (env : PackEnv) (hdir : env.dirExists = true)
    (hman : env.manifestExists = false)
    (h : env.confirmCreate = false ∨ env.initSucceeds = false) :
    (packExtensionRun env).1 = false ∧
    FsEvent.promptCreate ∈ (packExtensionRun env).2 ∧
    ∀ e ∈ (packExtensionRun env).2, e = FsEvent.promptCreate ∨ e = FsEvent.initRun := by
  rcases h with hc | hi
  · have hrun : packExtensionRun env = (false, [FsEvent.promptCreate]) := by
      simp [packExtensionRun, hdir, hman, hc]
    rw [hrun]
    refine ⟨rfl, by simp, by simp⟩
  · cases hc : env.confirmCreate with
    | false =>
      have hrun : packExtensionRun env = (false, [FsEvent.promptCreate]) := by
        simp [packExtensionRun, hdir, hman, hc]
      rw [hrun]
      refine ⟨rfl, by simp, by simp⟩
    | true =>
      have hrun : packExtensionRun env = (false, [FsEvent.promptCreate, FsEvent.initRun]) := by
        simp [packExtensionRun, hdir, hman, hc, hi]
      rw [hrun]
      refine ⟨rfl, by simp, by simp⟩

/-- Witness for C7: declining manifest creation fails the run with only
the prompt in the trace. -/
theorem c7_manifest_declined_witness :
    (packExtensionRun declinedEnv).1 = false ∧
    FsEvent.promptCreate ∈ (packExtensionRun declinedEnv).2 ∧
    ∀ e ∈ (packExtensionRun declinedEnv).2,
      e = FsEvent.promptCreate ∨ e = FsEvent.initRun :=
  c7_manifest_declined declinedEnv rfl rfl (Or.inl rfl)

/-! ## C8: the resolved output path -/

/-- C8: a successful run writes the archive at the resolved output path;
with no output path supplied that is `<extension dir basename>.dxt`
resolved against the current working directory, and with one supplied it
is that path resolved against the current working directory. -/
theorem c8_output_path (env : PackEnv) (hs : (packExtensionRun env).1 = true) :
    (∃ d, FsEvent.writeFile (finalOutputPathOf env) d ∈ (packExtensionRun env).2) ∧
    (env.outputPath = none →
      finalOutputPathOf env = resolveP env.cwd (basenameP (resolvedPathOf env) ++ ".dxt")) ∧
    (∀ o, env.outputPath = some o → finalOutputPathOf env = resolveP env.cwd o) := by
  refine ⟨?_, ?_, ?_⟩
  · rcases packExtensionRun_cases env with h | h | h | ⟨pre, hpre, h⟩
    · rw [h] at hs
      exact absurd hs (by simp)
    · rw [h] at hs
      exact absurd hs (by simp)
    · rw [h] at hs
      exact absurd hs (by simp)
    · rcases packAfterManifest_cases env pre with ⟨-, ha⟩ | ⟨-, -, ha⟩
      · rw [h, ha] at hs
        exact absurd hs (by simp)
      · rcases packBuild_cases env with ⟨-, hb⟩ | ⟨files, -, -, hb⟩
        · rw [h, ha, hb] at hs
          exact absurd hs (by simp)
        · rw [h, ha, hb]
          exact ⟨zipSyncModel files 9 env.now, by simp⟩
  · intro ho
    rw [finalOutputPathOf, ho]
  · intro o ho
    rw [finalOutputPathOf, ho]

/-- Witness for C8: `okEnv` supplies no output path, so the archive is
written at `/w/ext.dxt` — the extension directory basename plus `.dxt`,
resolved against the cwd `/w`. -/
theorem c8_output_path_witness :
    (∃ d, FsEvent.writeFile (finalOutputPathOf okEnv) d ∈ (packExtensionRun okEnv).2) ∧
    finalOutputPathOf okEnv = "/w/ext.dxt" := by
  refine ⟨(c8_output_path okEnv (by decide)).1, by decide⟩

/-! ## C10: the output directory is created before discovery -/

/-- C10: once the manifest stage passes, the trace contains exactly one
`mkdirSync` of the output path's parent directory followed by the start of
discovery — so the directory is created before discovery begins, and the
mkdir is in the trace (persisting on disk) even when discovery then throws
and the run returns `false`. -/
theorem c10_mkdir_before_discovery (env : PackEnv) (hdir : env.dirExists = true)
    (hman : env.manifestExists = true ∨
      (env.confirmCreate = true ∧ env.initSucceeds = true))
    (hval : env.validateOk = true) (hparse : env.parseOk = true) :
    (packExtensionRun env).2.filter (fun e => isMkdirEvent e || isDiscoverEvent e) =
      [FsEvent.mkdirRecursive (parentDirP (finalOutputPathOf env)),
        FsEvent.discoverStart (resolvedPathOf env)] ∧
    ((∃ e, env.discover = Except.error e) →
      (packExtensionRun env).1 = false ∧
      FsEvent.mkdirRecursive (parentDirP (finalOutputPathOf env))
        ∈ (packExtensionRun env).2) := by
  have hrun : ∃ pre, (pre = [] ∨ pre = [FsEvent.promptCreate, FsEvent.initRun]) ∧
      packExtensionRun env = packAfterManifest env pre := by
    rcases hman with hm | ⟨hc, hi⟩
    · exact ⟨[], Or.inl rfl, by simp [packExtensionRun, hdir, hm]⟩
    · cases hm : env.manifestExists with
      | true => exact ⟨[], Or.inl rfl, by simp [packExtensionRun, hdir, hm]⟩
      | false =>
        exact ⟨[FsEvent.promptCreate, FsEvent.initRun], Or.inr rfl,
          by simp [packExtensionRun, hdir, hm, hc, hi]⟩
  obtain ⟨pre, hpre, h⟩ := hrun
  rcases packAfterManifest_cases env pre with ⟨hbad, -⟩ | ⟨-, -, ha⟩
  · rcases hbad with hbad | hbad
    · rw [hval] at hbad
      exact absurd hbad (by simp)
    · rw [hparse] at hbad
      exact absurd hbad (by simp)
  · constructor
    · rw [h, ha]
      rcases packBuild_cases env with ⟨-, hb⟩ | ⟨files, -, -, hb⟩ <;>
        rw [hb] <;>
        rcases hpre with rfl | rfl <;>
          simp [isMkdirEvent, isDiscoverEvent, isWriteEvent]
    · intro ⟨e, he⟩
      rcases packBuild_cases env with ⟨-, hb⟩ | ⟨files, hdf, -, -⟩
      · rw [h, ha, hb]
        refine ⟨rfl, by simp⟩
      · rw [hdf] at he
        exact absurd he (by simp)

/-- Witness for C10: with discovery failing, the run fails but the mkdir
of `/w` (the parent of `/w/ext.dxt`) is still in the trace, before the
discovery event. -/
theorem c10_mkdir_before_discovery_witness :
    (packExtensionRun discoverFailEnv).2.filter
        (fun e => isMkdirEvent e || isDiscoverEvent e) =
      [FsEvent.mkdirRecursive (parentDirP (finalOutputPathOf discoverFailEnv)),
        FsEvent.discoverStart (resolvedPathOf discoverFailEnv)] ∧
    (packExtensionRun discoverFailEnv).1 = false ∧
    FsEvent.mkdirRecursive (parentDirP (finalOutputPathOf discoverFailEnv))
      ∈ (packExtensionRun discoverFailEnv).2 := by
  have h := c10_mkdir_before_discovery discoverFailEnv rfl (Or.inl rfl) rfl rfl
  have h2 := h.2 ⟨"ENOENT", rfl⟩
  exact ⟨h.1, h2.1, h2.2⟩

/-! ## C1: determinism and the wall-clock timestamp -/

/-- C1 counterexample: `okEnvLater` differs from `okEnv` only in the wall
clock (`new Date()` four seconds later); both runs succeed on the same
file entries, yet the traces (and in particular the written archive
bytes) differ, so the archive is not a pure function of the file entries
and compression parameters, and the container timestamp is not a fixed
caller-supplied value. -/
theorem c1_determinism_counterexample :
    okEnvLater = { okEnv with now := 4 } ∧
    (packExtensionRun okEnv).1 = true ∧
    (packExtensionRun okEnvLater).1 = true ∧
    (packExtensionRun okEnv).2 ≠ (packExtensionRun okEnvLater).2 := by
  refine ⟨rfl, by decide, by decide, by decide⟩

/-- C1 (amended): the archive bytes are a pure function of the file
entries, the compression level and the `mtime` timestamp; two invocations
produce byte-identical archives (and hence identical content hashes, for
any digest function of the bytes) whenever their clock readings agree at
the container timestamp's 2-second resolution — but the timestamp passed
is `new Date()` at each invocation, not a fixed caller-supplied value. -/
theorem c1_determinism_amended (files : List (String × List Nat)) (lvl t t' : Nat)
    (h : dosTime t = dosTime t') :
    zipSyncModel files lvl t = zipSyncModel files lvl t' ∧
    ∀ digest : List Nat → List Nat,
      digest (zipSyncModel files lvl t) = digest (zipSyncModel files lvl t') := by
  have hent : entryBytes t = entryBytes t' := by
    funext f
    simp [entryBytes, h]
  have h1 : zipSyncModel files lvl t = zipSyncModel files lvl t' := by
    simp only [zipSyncModel, hent]
  exact ⟨h1, fun digest => by rw [h1]⟩

/-- Witness for C1 (amended): clock readings 0 and 1 share the DOS
timestamp 0, so the archives coincide byte for byte. -/
theorem c1_determinism_amended_witness :
    dosTime 0 = dosTime 1 ∧
    zipSyncModel [("a", [65])] 9 0 = zipSyncModel [("a", [65])] 9 1 :=
  ⟨by decide, (c1_determinism_amended [("a", [65])] 9 0 1 (by decide)).1⟩

end Pack
